import Mathlib

/-!
Verification of the DECS key-value store (LRU cache + connection pool +
HTTP coordinator) against its natural-language specification.

The cache (`include/lru_cache.h`) keeps an `std::list` of (key, value)
pairs ordered most-recently-used first, together with an `unordered_map`
from key to list node.  The map and the list are kept in sync by every
operation (spec invariants C1/C2), so the cache state is embedded as the
list alone, with map lookups rendered as key searches in the list.
`std::list::back()`/`pop_back()` on an empty list is undefined behaviour
in C++; operations that would reach it return `none`.
-/

namespace DECS

/-- A cache entry: (key, value). The list holding them is ordered MRU first
(`push_front` = `cons`), matching `m_lru_list` in `lru_cache.h`. -/
abbrev Entry := String × String

/-- `keyIs k e` mirrors probing `m_cache_map` for `k`: does entry `e` carry key `k`? -/
def keyIs (k : String) (e : Entry) : Bool := e.1 == k

/-- `LRUCache::put` from `lru_cache.h` (lines 21–39), on the list view.
Hit: splice the node to the front and overwrite its value.
Miss with `map.size() >= max_size`: read `back()` (undefined behaviour on an
empty list, rendered `none`), erase it, `pop_back`, then `push_front` the new
pair.  Miss otherwise: `push_front` the new pair. -/
def cachePutL (m : Nat) (k v : String) (l : List Entry) : Option (List Entry) :=
  if (l.find? (keyIs k)).isSome then
    some ((k, v) :: l.eraseP (keyIs k))
  else if m ≤ l.length then
    match l.getLast? with
    | none => none
    | some _ => some ((k, v) :: l.dropLast)
  else
    some ((k, v) :: l)

/-- `LRUCache::get` from `lru_cache.h` (lines 41–52), on the list view.
Miss: return `nullopt`, state unchanged.  Hit: splice the node to the front
and return its value. -/
def cacheGetL (k : String) (l : List Entry) : Option String × List Entry :=
  match l.find? (keyIs k) with
  | none => (none, l)
  | some e => (some e.2, e :: l.eraseP (keyIs k))

/-- `LRUCache::remove` from `lru_cache.h` (lines 54–62): erase the node the
map points at when the key is present, otherwise do nothing. -/
def cacheRemoveL (k : String) (l : List Entry) : List Entry :=
  l.eraseP (keyIs k)

/-- `CacheState` from `lru_cache.h` (lines 10–14). -/
structure CacheState where
  current_size : Nat
  max_size : Nat
  items : List Entry
  deriving Repr, DecidableEq

/-- The cache object: capacity `m_max_size` plus the MRU-first entry list. -/
structure LRU where
  maxSize : Nat
  items : List Entry
  deriving Repr, DecidableEq

/-- `LRUCache::get_state` from `lru_cache.h` (lines 64–71): copy out
`m_cache_map.size()` (= list length, the two being in sync), `m_max_size`
and the MRU-first list.  It only reads; no field is mutated. -/
def get_state (c : LRU) : CacheState :=
  ⟨c.items.length, c.maxSize, c.items⟩

/-- Object-level `put`. -/
def LRU.put (c : LRU) (k v : String) : Option LRU :=
  (cachePutL c.maxSize k v c.items).map (fun l => ⟨c.maxSize, l⟩)

/-- Object-level `get`: returned value and the cache after promotion. -/
def LRU.get (c : LRU) (k : String) : Option String × LRU :=
  ((cacheGetL k c.items).1, ⟨c.maxSize, (cacheGetL k c.items).2⟩)

/-- Object-level `remove`. -/
def LRU.remove (c : LRU) (k : String) : LRU :=
  ⟨c.maxSize, cacheRemoveL k c.items⟩

/-! ### Operation sequences -/

/-- One cache operation of the public mutating interface. -/
inductive CacheOp where
  | put (k v : String)
  | get (k : String)
  | remove (k : String)
  deriving Repr, DecidableEq

/-- Effect of one operation on the entry list (capacity `m`).
`get` and `remove` never fail; `put` is `none` exactly when the C++ would
execute `back()` on an empty list. -/
def applyOp (m : Nat) (l : List Entry) : CacheOp → Option (List Entry)
  | .put k v => cachePutL m k v l
  | .get k => some (cacheGetL k l).2
  | .remove k => some (cacheRemoveL k l)

/-- Run a sequence of operations from state `l`. -/
def runFrom (m : Nat) (l : List Entry) : List CacheOp → Option (List Entry)
  | [] => some l
  | o :: rest =>
    match applyOp m l o with
    | none => none
    | some l2 => runFrom m l2 rest

/-- Run a sequence of operations on the freshly constructed (empty) cache. -/
def runOps (m : Nat) (σ : List CacheOp) : Option (List Entry) :=
  runFrom m [] σ

/-! ### HTTP handlers (`src/server.cpp`)

The HTTP framing and the PostgreSQL wire protocol are external
collaborators; the backend's answers enter the handlers as oracle
parameters (`dbPutOk`, `dbVal`, `dbRemoveOk`), exactly the values
`db.put` / `db.get` / `db.remove` return in the C++.  Each handler also
returns the ordered trace of backend and cache calls it issued. -/

/-- An HTTP response: status code and plain-text body. -/
structure HttpResponse where
  status : Nat
  body : String
  deriving Repr, DecidableEq

/-- One externally visible call a handler makes, in program order. -/
inductive Effect where
  | dbPut (k v : String)
  | dbGet (k : String)
  | dbDelete (k : String)
  | cachePutE (k v : String)
  | cacheGetE (k : String)
  | cacheRemoveE (k : String)
  deriving Repr, DecidableEq

/-- The `POST /create` handler, `server.cpp` lines 38–60.  Missing
parameter ⇒ 400.  Otherwise `db.put` runs first; on failure ⇒ 500 with the
cache untouched; on success `cache.put` runs, then 200. -/
def createHandler (dbPutOk : Bool) (keyP valueP : Option String) (c : LRU) :
    HttpResponse × Option LRU × List Effect :=
  match keyP, valueP with
  | some key, some value =>
    if dbPutOk then
      (⟨200, "Successfully created/updated key: " ++ key⟩,
        c.put key value, [.dbPut key value, .cachePutE key value])
    else
      (⟨500, "Database operation failed"⟩, some c, [.dbPut key value])
  | _, _ => (⟨400, "Missing 'key' or 'value' parameters"⟩, some c, [])

/-- The `GET /read` handler, `server.cpp` lines 67–95.  Missing parameter
⇒ 400.  Cache hit ⇒ 200 from cache, the backend is never called.  Cache
miss: `db.get`; a value ⇒ `cache.put` then 200 from DB; none ⇒ 404. -/
def readHandler (dbVal : Option String) (keyP : Option String) (c : LRU) :
    HttpResponse × Option LRU × List Effect :=
  match keyP with
  | none => (⟨400, "Missing 'key' parameter"⟩, some c, [])
  | some key =>
    match c.get key with
    | (some v, c2) =>
      (⟨200, "Value (from cache): " ++ v⟩, some c2, [.cacheGetE key])
    | (none, c2) =>
      match dbVal with
      | some v =>
        (⟨200, "Value (from DB): " ++ v⟩, c2.put key v,
          [.cacheGetE key, .dbGet key, .cachePutE key v])
      | none =>
        (⟨404, "Key not found"⟩, some c2, [.cacheGetE key, .dbGet key])

/-- The `DELETE /delete` handler, `server.cpp` lines 102–122.  Missing
parameter ⇒ 400.  `db.remove` failure ⇒ 500 with the cache untouched;
success ⇒ `cache.remove` then 200. -/
def deleteHandler (dbRemoveOk : Bool) (keyP : Option String) (c : LRU) :
    HttpResponse × LRU × List Effect :=
  match keyP with
  | none => (⟨400, "Missing 'key' parameter"⟩, c, [])
  | some key =>
    if dbRemoveOk then
      (⟨200, "Successfully deleted key: " ++ key⟩, c.remove key,
        [.dbDelete key, .cacheRemoveE key])
    else
      (⟨500, "Database operation failed"⟩, c, [.dbDelete key])

/-- The backend table `kv_pairs`, keyed uniquely, as the adapter sees it
(`db_connector.h`).  `DELETE FROM kv_pairs WHERE key = $1` with a healthy
connection yields `PGRES_COMMAND_OK` whether or not any row matched, so
`DBConnector::remove` (lines 75–91) returns `true` either way; only a
connection/command error (`healthy = false`) makes it return `false`. -/
def dbRemoveModel (healthy : Bool) (db : List Entry) (k : String) :
    Bool × List Entry :=
  if healthy then (true, db.eraseP (keyIs k)) else (false, db)

/-! ### Connection pool (`DBConnectionPool`, unnamed part_003)

Sessions are identified by their attempt index at construction.  The
constructor tries `pool_size` connections and pushes only the successful
ones; `is_connected` tests emptiness of the *current* idle queue;
`getConnection` pops the front (blocking while empty — rendered `none`
when no session is idle); `returnConnection` pushes at the back.  The
`PQreset` repair on borrow mutates only the external connection's health,
not the pool structure, and is not represented. -/

/-- The pool state: the queue of currently idle sessions, front first. -/
structure Pool where
  idle : List Nat
  deriving Repr, DecidableEq

/-- The constructor loop: attempt `i` succeeds iff the corresponding
entry of `ok` is `true`; successful connections are pushed in order. -/
def connectIds (i : Nat) : List Bool → List Nat
  | [] => []
  | b :: rest => if b then i :: connectIds (i + 1) rest else connectIds (i + 1) rest

/-- `DBConnectionPool::DBConnectionPool`: keep exactly the successfully
established sessions, in attempt order. -/
def constructPool (ok : List Bool) : Pool :=
  ⟨connectIds 0 ok⟩

/-- `DBConnectionPool::is_connected` (part_003 lines 38–40):
`!m_pool.empty()` on the current idle queue. -/
def Pool.is_connected (p : Pool) : Bool :=
  !p.idle.isEmpty

/-- `DBConnectionPool::getConnection` (part_003 lines 130–146): wait until
the queue is nonempty (`none` = still blocked), then pop the front. -/
def Pool.getConnection (p : Pool) : Option (Nat × Pool) :=
  match p.idle with
  | [] => none
  | c :: rest => some (c, ⟨rest⟩)

/-- `DBConnectionPool::returnConnection`: push the session at the back. -/
def Pool.returnConnection (p : Pool) (c : Nat) : Pool :=
  ⟨p.idle ++ [c]⟩

/-! ### Spec-side history observations

The spec defines the *last touch* of a key as "the most recent of its
insertion or last `get`/`put`".  These definitions follow the spec's
words; they observe the operation sequence only, never the cache state,
and are compared against the behaviour of the source-embedded operations
in the theorems below. -/

/-- Does operation `o` touch key `k` (a `put` or a `get` of `k`)?
`remove` is not a touch in the spec's definition. -/
def mentionsKey (k : String) : CacheOp → Bool
  | .put k2 _ => k2 == k
  | .get k2 => k2 == k
  | .remove _ => false

/-- Absolute index (0-based, chronological) of the most recent touch of
`k` in the sequence, `none` when `k` was never touched. -/
def lastTouch (k : String) : List CacheOp → Option Nat
  | [] => none
  | o :: σ =>
    match lastTouch k σ with
    | some i => some (i + 1)
    | none => if mentionsKey k o then some 0 else none

/-- The value `o` writes to key `k`, if `o` is a `put` of `k`. -/
def putsTo (k : String) : CacheOp → Option String
  | .put k2 v => if k2 == k then some v else none
  | _ => none

/-- Value of the most recent `put` to `k` in the sequence. -/
def lastPutValue (k : String) : List CacheOp → Option String
  | [] => none
  | o :: σ => (lastPutValue k σ).or (putsTo k o)

lemma lastTouch_append_one (k : String) (σ : List CacheOp) (o : CacheOp) :
    lastTouch k (σ ++ [o]) =
      if mentionsKey k o then some σ.length else lastTouch k σ := by
  induction σ with
  | nil => cases h : mentionsKey k o <;> simp [lastTouch, h]
  | cons o' σ ih =>
    cases h : mentionsKey k o with
    | true =>
      have h1 : lastTouch k (σ ++ [o]) = some σ.length := by rw [ih]; simp [h]
      simp [lastTouch, h1, h, List.length_cons]
    | false =>
      have h1 : lastTouch k (σ ++ [o]) = lastTouch k σ := by rw [ih]; simp [h]
      simp [lastTouch, h1, h]

lemma lastTouch_lt_length {k : String} {σ : List CacheOp} {i : Nat}
    (h : lastTouch k σ = some i) : i < σ.length := by
  induction σ generalizing i with
  | nil => simp [lastTouch] at h
  | cons o σ ih =>
    rw [lastTouch] at h
    cases h2 : lastTouch k σ with
    | some j =>
      rw [h2] at h
      simp only [Option.some.injEq] at h
      have := ih h2
      simp [← h, List.length_cons]
      omega
    | none =>
      rw [h2] at h
      by_cases hm : mentionsKey k o = true
      · simp [hm] at h
        simp [← h]
      · simp [hm] at h

lemma lastPutValue_append_one (k : String) (σ : List CacheOp) (o : CacheOp) :
    lastPutValue k (σ ++ [o]) = (putsTo k o).or (lastPutValue k σ) := by
  induction σ with
  | nil => simp [lastPutValue]
  | cons o' σ ih =>
    show (lastPutValue k (σ ++ [o])).or (putsTo k o') =
      (putsTo k o).or ((lastPutValue k σ).or (putsTo k o'))
    rw [ih, Option.or_assoc]

lemma mentionsKey_of_ne {k k' : String} {o : CacheOp}
    (h : mentionsKey k o = true) (hne : k' ≠ k) : mentionsKey k' o = false := by
  cases o with
  | put k2 v =>
    simp only [mentionsKey, beq_iff_eq] at h
    subst h
    exact beq_eq_false_iff_ne.mpr fun hh => hne hh.symm
  | get k2 =>
    simp only [mentionsKey, beq_iff_eq] at h
    subst h
    exact beq_eq_false_iff_ne.mpr fun hh => hne hh.symm
  | remove k2 => rfl

lemma putsTo_of_ne {k k' : String} {o : CacheOp}
    (h : mentionsKey k o = true) (hne : k' ≠ k) : putsTo k' o = none := by
  cases o with
  | put k2 v =>
    simp only [mentionsKey, beq_iff_eq] at h
    simp [putsTo, h, hne.symm]
  | get k2 => rfl
  | remove k2 => rfl

/-! ### Reachable-state invariant -/

/-- Entry `e` is sound against history `σ`: its key has been touched and
its value is that of the most recent `put` to it. -/
def entryOK (σ : List CacheOp) (e : Entry) : Prop :=
  (lastTouch e.1 σ).isSome = true ∧ lastPutValue e.1 σ = some e.2

/-- `e1`'s key was touched more recently than `e2`'s. -/
def newerThan (σ : List CacheOp) (e1 e2 : Entry) : Prop :=
  ∀ i j, lastTouch e1.1 σ = some i → lastTouch e2.1 σ = some j → j < i

/-- Invariant of states reachable by `σ`: keys are pairwise distinct,
every entry is sound, and the list is ordered by strictly decreasing
recency (MRU first). -/
def goodState (σ : List CacheOp) (l : List Entry) : Prop :=
  (l.map Prod.fst).Nodup ∧ (∀ e ∈ l, entryOK σ e) ∧ l.Pairwise (newerThan σ)

lemma keys_eraseP (k : String) (l : List Entry) :
    (l.eraseP (keyIs k)).map Prod.fst = (l.map Prod.fst).erase k := by
  induction l with
  | nil => rfl
  | cons e l ih =>
    by_cases h : e.1 = k
    · simp [List.eraseP_cons, List.erase_cons, keyIs, h]
    · simp [List.eraseP_cons, List.erase_cons, keyIs, h, ih]

lemma find?_keyIs_eq {k : String} {l : List Entry} {e : Entry}
    (h : l.find? (keyIs k) = some e) : e.1 = k := by
  have := List.find?_some h
  simpa [keyIs] using this

lemma key_not_in_eraseP {k : String} {l : List Entry}
    (hnd : (l.map Prod.fst).Nodup) {e : Entry} (he : e ∈ l.eraseP (keyIs k)) :
    e.1 ≠ k := by
  intro hk
  have hmem : e.1 ∈ (l.eraseP (keyIs k)).map Prod.fst := List.mem_map_of_mem _ he
  rw [keys_eraseP] at hmem
  exact ((hnd.mem_erase_iff.mp hmem).1) hk

lemma entryOK_append {σ : List CacheOp} {o : CacheOp} {e : Entry}
    (h : entryOK σ e) (hm : mentionsKey e.1 o = false)
    (hp : putsTo e.1 o = none) : entryOK (σ ++ [o]) e := by
  obtain ⟨h1, h2⟩ := h
  constructor
  · rw [lastTouch_append_one, hm]
    simpa using h1
  · rw [lastPutValue_append_one, hp]
    simpa using h2

lemma newerThan_append {σ : List CacheOp} {o : CacheOp} {e1 e2 : Entry}
    (h : newerThan σ e1 e2)
    (hm1 : mentionsKey e1.1 o = false) (hm2 : mentionsKey e2.1 o = false) :
    newerThan (σ ++ [o]) e1 e2 := by
  intro i j hi hj
  rw [lastTouch_append_one, hm1] at hi
  rw [lastTouch_append_one, hm2] at hj
  simp only [Bool.false_eq_true, if_false] at hi hj
  exact h i j hi hj

/-- Pushing a freshly touched entry `(k, v)` onto a surviving sublist of a
good state yields a good state for the extended history. -/
lemma goodState_push {σ : List CacheOp} {o : CacheOp} {k v : String}
    {l0 tail : List Entry}
    (hmention : mentionsKey k o = true)
    (hval : lastPutValue k (σ ++ [o]) = some v)
    (hg : goodState σ l0)
    (hsub : tail.Sublist l0)
    (hnok : ∀ e ∈ tail, e.1 ≠ k) :
    goodState (σ ++ [o]) ((k, v) :: tail) := by
  obtain ⟨hnd, hok, hpw⟩ := hg
  have htl_mem : ∀ e ∈ tail, e ∈ l0 := fun e he => hsub.subset he
  have htouch : lastTouch k (σ ++ [o]) = some σ.length := by
    rw [lastTouch_append_one, hmention]
    simp
  refine ⟨?_, ?_, ?_⟩
  · simp only [List.map_cons, List.nodup_cons]
    refine ⟨?_, (hnd.sublist (hsub.map Prod.fst))⟩
    intro hmem
    obtain ⟨e, he, hk⟩ := List.mem_map.mp hmem
    exact hnok e he hk
  · intro e he
    rcases List.mem_cons.mp he with rfl | he2
    · exact ⟨by simp [htouch], hval⟩
    · exact entryOK_append (hok e (htl_mem e he2))
        (mentionsKey_of_ne hmention (hnok e he2))
        (putsTo_of_ne hmention (hnok e he2))
  · rw [List.pairwise_cons]
    constructor
    · intro e he i j hi hj
      rw [htouch] at hi
      simp only [Option.some.injEq] at hi
      rw [lastTouch_append_one,
        mentionsKey_of_ne hmention (hnok e he)] at hj
      simp only [Bool.false_eq_true, if_false] at hj
      have hb := lastTouch_lt_length hj
      omega
    · have htail : tail.Pairwise (newerThan σ) := hpw.sublist hsub
      exact htail.imp_of_mem fun {e1 e2} h1 h2 hr =>
        newerThan_append hr
          (mentionsKey_of_ne hmention (hnok e1 h1))
          (mentionsKey_of_ne hmention (hnok e2 h2))

/-- A sublist of a good state whose keys the new operation does not touch
is good for the extended history. -/
lemma goodState_sub {σ : List CacheOp} {o : CacheOp} {l0 tail : List Entry}
    (hg : goodState σ l0) (hsub : tail.Sublist l0)
    (hun : ∀ e ∈ tail, mentionsKey e.1 o = false ∧ putsTo e.1 o = none) :
    goodState (σ ++ [o]) tail := by
  obtain ⟨hnd, hok, hpw⟩ := hg
  refine ⟨hnd.sublist (hsub.map Prod.fst), ?_, ?_⟩
  · intro e he
    exact entryOK_append (hok e (hsub.subset he)) (hun e he).1 (hun e he).2
  · have htail : tail.Pairwise (newerThan σ) := hpw.sublist hsub
    exact htail.imp_of_mem fun {e1 e2} h1 h2 hr =>
      newerThan_append hr (hun e1 h1).1 (hun e2 h2).1

lemma runFrom_append (m : Nat) (l : List Entry) (σ τ : List CacheOp) :
    runFrom m l (σ ++ τ) =
      match runFrom m l σ with
      | none => none
      | some l2 => runFrom m l2 τ := by
  induction σ generalizing l with
  | nil => rfl
  | cons o σ ih =>
    simp only [List.cons_append, runFrom]
    cases h : applyOp m l o with
    | none => simp
    | some l2 => simp [ih]

lemma runOps_append_one (m : Nat) (σ : List CacheOp) (o : CacheOp) :
    runOps m (σ ++ [o]) =
      match runOps m σ with
      | none => none
      | some l => applyOp m l o := by
  rw [runOps, runOps, runFrom_append]
  cases h : runFrom m [] σ with
  | none => rfl
  | some l =>
    show runFrom m l [o] = applyOp m l o
    rw [runFrom]
    cases applyOp m l o <;> rfl

/-- Every state reachable from the empty cache satisfies the invariant:
distinct keys, values from the most recent `put`, and MRU-first ordering
by strictly decreasing last-touch index. -/
theorem runOps_goodState {m : Nat} {σ : List CacheOp} {l : List Entry}
    (h : runOps m σ = some l) : goodState σ l := by
  induction σ using List.reverseRecOn generalizing l with
  | nil =>
    simp only [runOps, runFrom, Option.some.injEq] at h
    subst h
    exact ⟨List.nodup_nil, by simp, List.Pairwise.nil⟩
  | append_singleton σ o ih =>
    rw [runOps_append_one] at h
    cases h2 : runOps m σ with
    | none => rw [h2] at h; cases h
    | some l0 =>
      rw [h2] at h
      have hg := ih h2
      cases o with
      | put k v =>
        simp only [applyOp, cachePutL] at h
        by_cases hf : (l0.find? (keyIs k)).isSome = true
        · rw [if_pos hf] at h
          simp only [Option.some.injEq] at h
          subst h
          exact goodState_push (by simp [mentionsKey])
            (by rw [lastPutValue_append_one]; simp [putsTo])
            hg (List.eraseP_sublist l0) (fun e he => key_not_in_eraseP hg.1 he)
        · have hnone : l0.find? (keyIs k) = none :=
            Option.not_isSome_iff_eq_none.mp hf
          have hnok0 : ∀ e ∈ l0, e.1 ≠ k := by
            intro e he hk
            have := List.find?_eq_none.mp hnone e he
            simp [keyIs, hk] at this
          rw [if_neg hf] at h
          by_cases hlen : m ≤ l0.length
          · rw [if_pos hlen] at h
            cases hl : l0.getLast? with
            | none => rw [hl] at h; cases h
            | some e_last =>
              rw [hl] at h
              simp only [Option.some.injEq] at h
              subst h
              exact goodState_push (by simp [mentionsKey])
                (by rw [lastPutValue_append_one]; simp [putsTo])
                hg (List.dropLast_sublist l0)
                (fun e he => hnok0 e ((List.dropLast_sublist l0).subset he))
          · rw [if_neg hlen] at h
            simp only [Option.some.injEq] at h
            subst h
            exact goodState_push (by simp [mentionsKey])
              (by rw [lastPutValue_append_one]; simp [putsTo])
              hg (List.Sublist.refl l0) hnok0
      | get k =>
        simp only [applyOp, cacheGetL, Option.some.injEq] at h
        cases hf : l0.find? (keyIs k) with
        | some e0 =>
          rw [hf] at h
          obtain ⟨ek, ev⟩ := e0
          have hek : ek = k := find?_keyIs_eq hf
          subst hek
          simp only at h
          subst h
          have hmem : (ek, ev) ∈ l0 := List.mem_of_find?_eq_some hf
          have hok0 := hg.2.1 (ek, ev) hmem
          exact goodState_push (by simp [mentionsKey])
            (by
              rw [lastPutValue_append_one]
              simpa [putsTo] using hok0.2)
            hg (List.eraseP_sublist l0) (fun e he => key_not_in_eraseP hg.1 he)
        | none =>
          rw [hf] at h
          simp only at h
          subst h
          have hnok0 : ∀ e ∈ l0, e.1 ≠ k := by
            intro e he hk
            have := List.find?_eq_none.mp hf e he
            simp [keyIs, hk] at this
          refine goodState_sub hg (List.Sublist.refl l0) ?_
          intro e he
          refine ⟨?_, rfl⟩
          simp only [mentionsKey]
          exact beq_eq_false_iff_ne.mpr fun hh => hnok0 e he hh.symm
      | remove k =>
        simp only [applyOp, cacheRemoveL, Option.some.injEq] at h
        subst h
        exact goodState_sub hg (List.eraseP_sublist l0) (fun e he => ⟨rfl, rfl⟩)

lemma length_eraseP_of_find? {k : String} {l : List Entry} {e : Entry}
    (h : l.find? (keyIs k) = some e) :
    (l.eraseP (keyIs k)).length + 1 = l.length := by
  have hmem : e ∈ l := List.mem_of_find?_eq_some h
  have hp : keyIs k e = true := List.find?_some h
  have := List.length_eraseP_of_mem hmem hp
  have hpos : 0 < l.length := List.length_pos_of_mem hmem
  omega

lemma applyOp_length {m : Nat} {l l2 : List Entry} {o : CacheOp}
    (h : applyOp m l o = some l2) (hl : l.length ≤ m) : l2.length ≤ m := by
  cases o with
  | put k v =>
    simp only [applyOp, cachePutL] at h
    by_cases hf : (l.find? (keyIs k)).isSome = true
    · obtain ⟨e, he⟩ := Option.isSome_iff_exists.mp hf
      rw [if_pos hf] at h
      simp only [Option.some.injEq] at h
      subst h
      have := length_eraseP_of_find? he
      simp only [List.length_cons]
      omega
    · rw [if_neg hf] at h
      by_cases hlen : m ≤ l.length
      · rw [if_pos hlen] at h
        cases hg : l.getLast? with
        | none => rw [hg] at h; cases h
        | some e =>
          rw [hg] at h
          simp only [Option.some.injEq] at h
          subst h
          have hne : l ≠ [] := by
            intro hnil
            subst hnil
            cases hg
          have hpos : 0 < l.length := List.length_pos_of_ne_nil hne
          simp only [List.length_cons, List.length_dropLast]
          omega
      · rw [if_neg hlen] at h
        simp only [Option.some.injEq] at h
        subst h
        simp only [List.length_cons]
        omega
  | get k =>
    simp only [applyOp, cacheGetL, Option.some.injEq] at h
    cases hf : l.find? (keyIs k) with
    | none =>
      rw [hf] at h
      simp only at h
      subst h
      exact hl
    | some e =>
      rw [hf] at h
      simp only at h
      subst h
      have := length_eraseP_of_find? hf
      simp only [List.length_cons]
      omega
  | remove k =>
    simp only [applyOp, cacheRemoveL, Option.some.injEq] at h
    subst h
    calc (l.eraseP (keyIs k)).length ≤ l.length := (List.eraseP_sublist l).length_le
      _ ≤ m := hl

lemma runFrom_length {m : Nat} {l l' : List Entry} {σ : List CacheOp}
    (h : runFrom m l σ = some l') (hl : l.length ≤ m) : l'.length ≤ m := by
  induction σ generalizing l with
  | nil =>
    simp only [runFrom, Option.some.injEq] at h
    subst h
    exact hl
  | cons o σ ih =>
    rw [runFrom] at h
    cases h2 : applyOp m l o with
    | none => rw [h2] at h; cases h
    | some l2 =>
      rw [h2] at h
      exact ih h (applyOp_length h2 hl)

/-- C5: For every sequence of `put`/`get`/`remove` operations on a cache
of capacity `max_size`, the number of entries is at most `max_size` after
every operation (every prefix of operations is itself such a sequence, so
quantifying over all sequences covers every observable moment). -/
theorem C5_cache_size_bounded (m : Nat) (σ : List CacheOp) (l : List Entry)
    (h : runOps m σ = some l) : l.length ≤ m :=
  runFrom_length h (Nat.zero_le m)

theorem C5_cache_size_bounded_witness :
    (runOps 2 [.put "a" "1", .put "b" "2", .get "a", .put "c" "3"]
      = some [("c", "3"), ("a", "1")])
    ∧ ([("c", "3"), ("a", "1")] : List Entry).length ≤ 2 :=
  ⟨by decide, C5_cache_size_bounded 2
    [.put "a" "1", .put "b" "2", .get "a", .put "c" "3"]
    [("c", "3"), ("a", "1")] (by decide)⟩

/-- C4: whenever a `put` on a reachable cache state evicts (key absent,
cache full), the evicted entry is the list tail, and its last-touch index
(spec definition: most recent `put`/`get` of the key) is minimal among
all cached entries; and the concrete promotion scenario of the spec:
`max_size = 2`, `put a 1; put b 2; get a; put c 3` leaves exactly
`c, a` in MRU-to-LRU order (`b` was evicted). -/
theorem C4_eviction_removes_oldest (m : Nat) (σ : List CacheOp)
    (l : List Entry) (k v : String)
    (hrun : runOps m σ = some l)
    (hmiss : l.find? (keyIs k) = none)
    (hfull : m ≤ l.length) (hne : l ≠ []) :
    cachePutL m k v l = some ((k, v) :: l.dropLast)
    ∧ (∀ e ∈ l, ∀ i j, lastTouch (l.getLast hne).1 σ = some i →
        lastTouch e.1 σ = some j → i ≤ j)
    ∧ runOps 2 [.put "a" "1", .put "b" "2", .get "a", .put "c" "3"]
        = some [("c", "3"), ("a", "1")] := by
  have hg := runOps_goodState hrun
  refine ⟨?_, ?_, by decide⟩
  · rw [cachePutL, if_neg (by simp [hmiss]), if_pos hfull,
      List.getLast?_eq_getLast l hne]
  · intro e he i j hi hj
    have hsplit := List.dropLast_append_getLast hne
    have hpw : (l.dropLast ++ [l.getLast hne]).Pairwise (newerThan σ) := by
      rw [hsplit]
      exact hg.2.2
    obtain ⟨-, -, hcross⟩ := List.pairwise_append.mp hpw
    rw [← hsplit] at he
    rcases List.mem_append.mp he with hd | hlast
    · have := hcross e hd (l.getLast hne) (List.mem_singleton_self _) j i hj hi
      omega
    · rw [List.mem_singleton.mp hlast] at hj
      rw [hi] at hj
      simp only [Option.some.injEq] at hj
      omega

theorem C4_eviction_removes_oldest_witness :
    cachePutL 1 "b" "2" [("a", "1")] = some [("b", "2")] := by
  have h := C4_eviction_removes_oldest 1 [.put "a" "1"] [("a", "1")] "b" "2"
    (by decide) (by decide) (by decide) (by decide)
  simpa using h.1

lemma cachePutL_head {m : Nat} {K V : String} {l l' : List Entry}
    (h : cachePutL m K V l = some l') : ∃ t, l' = (K, V) :: t := by
  rw [cachePutL] at h
  by_cases hf : (l.find? (keyIs K)).isSome = true
  · rw [if_pos hf] at h
    exact ⟨_, (Option.some.inj h).symm⟩
  · rw [if_neg hf] at h
    by_cases hlen : m ≤ l.length
    · rw [if_pos hlen] at h
      cases hg : l.getLast? with
      | none => rw [hg] at h; cases h
      | some e =>
        rw [hg] at h
        exact ⟨_, (Option.some.inj h).symm⟩
    · rw [if_neg hlen] at h
      exact ⟨_, (Option.some.inj h).symm⟩

lemma cacheGetL_cons_self (K V : String) (t : List Entry) :
    (cacheGetL K ((K, V) :: t)).1 = some V := by
  rw [cacheGetL, List.find?_cons_of_pos _ (by simp [keyIs])]

/-- C6: `get(K)` returns the value of the most recent `put(K, v)` unless
a `remove(K)` or an eviction of `K` intervened — the latter two leave `K`
absent, in which case `get` reports absent; so whenever `get` does return
a value on a reachable state, it is the last-put value.  In particular
`put(K,V); get(K) = V` and `put(K,V); put(K,V'); get(K) = V'` from any
cache state. -/
theorem C6_get_returns_most_recent_put :
    (∀ (m : Nat) (σ : List CacheOp) (l : List Entry) (k v : String),
        runOps m σ = some l → (cacheGetL k l).1 = some v →
        lastPutValue k σ = some v)
    ∧ (∀ (m : Nat) (K V : String) (l l' : List Entry),
        cachePutL m K V l = some l' → (cacheGetL K l').1 = some V)
    ∧ (∀ (m : Nat) (K V V' : String) (l l1 l2 : List Entry),
        cachePutL m K V l = some l1 → cachePutL m K V' l1 = some l2 →
        (cacheGetL K l2).1 = some V') := by
  refine ⟨?_, ?_, ?_⟩
  · intro m σ l k v hrun hget
    have hg := runOps_goodState hrun
    rw [cacheGetL] at hget
    cases hf : l.find? (keyIs k) with
    | none => rw [hf] at hget; cases hget
    | some e =>
      rw [hf] at hget
      simp only [Option.some.injEq] at hget
      have hek : e.1 = k := find?_keyIs_eq hf
      have hok := hg.2.1 e (List.mem_of_find?_eq_some hf)
      rw [← hek, hok.2, hget]
  · intro m K V l l' h
    obtain ⟨t, rfl⟩ := cachePutL_head h
    exact cacheGetL_cons_self K V t
  · intro m K V V' l l1 l2 h1 h2
    obtain ⟨t, rfl⟩ := cachePutL_head h2
    exact cacheGetL_cons_self K V' t

theorem C6_get_returns_most_recent_put_witness :
    lastPutValue "k" [.put "k" "v0", .put "k" "v1"] = some "v1" :=
  C6_get_returns_most_recent_put.1 3 [.put "k" "v0", .put "k" "v1"]
    [("k", "v1")] "k" "v1" (by decide) (by decide)

lemma filter_not_eraseP (k : String) (l : List Entry) :
    (l.eraseP (keyIs k)).filter (fun e => !keyIs k e)
      = l.filter (fun e => !keyIs k e) := by
  induction l with
  | nil => rfl
  | cons e l ih =>
    cases h : keyIs k e
    · simp [List.eraseP_cons, List.filter_cons, h, ih]
    · simp [List.eraseP_cons, List.filter_cons, h]

/-- C9: `put` of a key already present never evicts, even on a full
cache: the handled state is the hit branch, which keeps the entry count,
permutes no key in or out, replaces only that key's value, moves it to
the MRU head, and leaves every other entry's value and relative order
unchanged. -/
theorem C9_put_present_never_evicts (m : Nat) (l : List Entry) (k v : String)
    (hk : k ∈ l.map Prod.fst) :
    cachePutL m k v l = some ((k, v) :: l.eraseP (keyIs k))
    ∧ ((k, v) :: l.eraseP (keyIs k)).length = l.length
    ∧ List.Perm (((k, v) :: l.eraseP (keyIs k)).map Prod.fst) (l.map Prod.fst)
    ∧ ((k, v) :: l.eraseP (keyIs k)).filter (fun e => !keyIs k e)
        = l.filter (fun e => !keyIs k e)
    ∧ (cacheGetL k ((k, v) :: l.eraseP (keyIs k))).1 = some v := by
  obtain ⟨e, he, hek⟩ := List.mem_map.mp hk
  have hfs : (l.find? (keyIs k)).isSome = true :=
    List.find?_isSome.mpr ⟨e, he, by simp [keyIs, hek]⟩
  obtain ⟨e0, hf⟩ := Option.isSome_iff_exists.mp hfs
  refine ⟨?_, ?_, ?_, ?_, cacheGetL_cons_self k v _⟩
  · rw [cachePutL, if_pos hfs]
  · have := length_eraseP_of_find? hf
    simp only [List.length_cons]
    omega
  · rw [List.map_cons, keys_eraseP]
    exact (List.perm_cons_erase hk).symm
  · rw [List.filter_cons, if_neg (by simp [keyIs])]
    exact filter_not_eraseP k l

theorem C9_put_present_never_evicts_witness :
    cachePutL 2 "a" "9" [("b", "2"), ("a", "1")]
      = some [("a", "9"), ("b", "2")] := by
  have h := C9_put_present_never_evicts 2 [("b", "2"), ("a", "1")] "a" "9"
    (by decide)
  simpa using h.1

/-- C2: the claim says a capacity-0 cache stores nothing and no error
occurs.  The code instead evicts *before* inserting: on the empty
capacity-0 cache `put` reaches `m_lru_list.back()` with the list empty —
undefined behaviour, rendered `none` — and on a (hypothetical) nonempty
capacity-0 state `put` evicts the old entry and then stores the new one,
which `get` then returns, so the cache does not remain empty. -/
theorem C2_put_capacity_zero_diverges :
    cachePutL 0 "k" "v" [] = none
    ∧ cachePutL 0 "k2" "v2" [("k", "v")] = some [("k2", "v2")]
    ∧ (cacheGetL "k2" [("k2", "v2")]).1 = some "v2" := by
  refine ⟨rfl, by decide, by decide⟩

/-! ### Snapshot purity (C8) -/

/-- A cache call as issued by request workers: one of the mutating
operations, or a `get_state` snapshot. -/
inductive ExtOp where
  | op (o : CacheOp)
  | snap
  deriving Repr, DecidableEq

/-- State effect of an extended call.  `get_state` (`lru_cache.h` lines
64–71) only copies fields out under the lock, so `snap` leaves the entry
list unchanged. -/
def applyExt (m : Nat) (l : List Entry) : ExtOp → Option (List Entry)
  | .op o => applyOp m l o
  | .snap => some l

/-- Run a sequence of extended calls from state `l`. -/
def runExtFrom (m : Nat) (l : List Entry) : List ExtOp → Option (List Entry)
  | [] => some l
  | e :: rest =>
    match applyExt m l e with
    | none => none
    | some l2 => runExtFrom m l2 rest

/-- Run a sequence of extended calls on the empty cache. -/
def runExt (m : Nat) (es : List ExtOp) : Option (List Entry) :=
  runExtFrom m [] es

/-- Discard the snapshot calls, keeping the mutating operations. -/
def dropSnaps : List ExtOp → List CacheOp
  | [] => []
  | .op o :: rest => o :: dropSnaps rest
  | .snap :: rest => dropSnaps rest

lemma runExtFrom_eq (m : Nat) (l : List Entry) (es : List ExtOp) :
    runExtFrom m l es = runFrom m l (dropSnaps es) := by
  induction es generalizing l with
  | nil => rfl
  | cons e rest ih =>
    cases e with
    | op o =>
      rw [runExtFrom, dropSnaps, runFrom]
      show (match applyOp m l o with
        | none => none
        | some l2 => runExtFrom m l2 rest) = _
      cases applyOp m l o with
      | none => rfl
      | some l2 => exact ih l2
    | snap => exact ih l

/-- C8: `snapshot` (`get_state`) is a pure observation — inserting any
number of snapshot calls between operations leaves every subsequent
state (hence every subsequent observation) exactly as if they had not
happened — and its result is the triple (current size, `max_size`,
entries MRU-to-LRU) whose size field equals the number of returned
entries. -/
theorem C8_snapshot_pure :
    (∀ (m : Nat) (es : List ExtOp), runExt m es = runOps m (dropSnaps es))
    ∧ (∀ c : LRU,
        (get_state c).current_size = (get_state c).items.length
        ∧ (get_state c).max_size = c.maxSize
        ∧ (get_state c).items = c.items) :=
  ⟨fun m es => runExtFrom_eq m [] es, fun _ => ⟨rfl, rfl, rfl⟩⟩

/-! ### Connection pool claims (C7) -/

lemma connectIds_isEmpty (i : Nat) (ok : List Bool) :
    (connectIds i ok).isEmpty = !ok.any id := by
  induction ok generalizing i with
  | nil => rfl
  | cons b rest ih =>
    cases b
    · rw [show connectIds i (false :: rest) = connectIds (i + 1) rest from rfl]
      simp [ih, List.any_cons]
    · simp [connectIds, List.any_cons]

/-- C7 counterexample: exactly one session is established at
construction, so by the claim `is_connected()` should stay true no
matter how many sessions are borrowed; yet after borrowing that single
session (idle queue now empty) `is_connected()` returns `false`. -/
theorem C7_is_connected_counterexample :
    (constructPool [true]).is_connected = true
    ∧ (constructPool [true]).getConnection = some (0, Pool.mk [])
    ∧ (Pool.mk []).is_connected = false := by
  refine ⟨rfl, rfl, rfl⟩

/-- C7 amended: `is_connected()` tests the *current* idle queue —
`!m_pool.empty()` — so it is true iff some session is idle right now.
Immediately after construction, with nothing yet borrowed, this is
equivalent to "at least one session was successfully established". -/
theorem C7_is_connected_amended :
    (∀ p : Pool, p.is_connected = !p.idle.isEmpty)
    ∧ (∀ ok : List Bool, (constructPool ok).is_connected = ok.any id) := by
  refine ⟨fun p => rfl, fun ok => ?_⟩
  rw [Pool.is_connected, constructPool, connectIds_isEmpty, Bool.not_not]

lemma cacheGetL_miss_state {k : String} {l : List Entry}
    (h : (cacheGetL k l).1 = none) : cacheGetL k l = (none, l) := by
  rw [cacheGetL] at h ⊢
  cases hf : l.find? (keyIs k) with
  | none => rfl
  | some e =>
    rw [hf] at h
    simp at h

/-- C1: for `POST /create` with both parameters present, the backend
upsert is the first effect; on backend success the pair is
inserted-or-replaced in the cache (it ends at the MRU head, where `get`
returns it) and the response is 200 with the exact body; on backend
failure the response is 500 and the cache state is exactly the
pre-request one, with no cache effect in the trace. -/
theorem C1_create_write_through (key value : String) (c : LRU) :
    ((createHandler true (some key) (some value) c).1
        = ⟨200, "Successfully created/updated key: " ++ key⟩
      ∧ (createHandler true (some key) (some value) c).2.1 = c.put key value
      ∧ (∀ c', c.put key value = some c' →
          (cacheGetL key c'.items).1 = some value))
    ∧ ((createHandler false (some key) (some value) c).1
        = ⟨500, "Database operation failed"⟩
      ∧ (createHandler false (some key) (some value) c).2.1 = some c)
    ∧ (∀ dbOk : Bool, (createHandler dbOk (some key) (some value) c).2.2
        = .dbPut key value :: (if dbOk then [.cachePutE key value] else [])) := by
  refine ⟨⟨rfl, rfl, ?_⟩, ⟨rfl, rfl⟩, ?_⟩
  · intro c' h
    rw [LRU.put] at h
    cases h2 : cachePutL c.maxSize key value c.items with
    | none => rw [h2] at h; cases h
    | some l' =>
      rw [h2] at h
      simp only [Option.map_some', Option.some.injEq] at h
      obtain ⟨t, rfl⟩ := cachePutL_head h2
      rw [← h]
      exact cacheGetL_cons_self key value t
  · intro dbOk
    cases dbOk <;> rfl

theorem C1_create_write_through_witness :
    (cacheGetL "k" (LRU.mk 100 [("k", "v")]).items).1 = some "v" :=
  (C1_create_write_through "k" "v" (LRU.mk 100 [])).1.2.2
    (LRU.mk 100 [("k", "v")]) (by decide)

/-- C3: for `GET /read` with the key present: a cache hit answers 200
from the cache with no backend effect in the trace (only the promoting
cache probe); a cache miss answered by the backend inserts the pair into
the cache (to the MRU head, where `get` finds it) and answers 200 from
the DB; a miss of both answers 404 with the cache exactly unchanged. -/
theorem C3_read_through (key : String) (c : LRU) (dbVal : Option String) :
    (∀ v, (cacheGetL key c.items).1 = some v →
        readHandler dbVal (some key) c
          = (⟨200, "Value (from cache): " ++ v⟩,
             some ⟨c.maxSize, (cacheGetL key c.items).2⟩, [.cacheGetE key]))
    ∧ ((cacheGetL key c.items).1 = none → ∀ v, dbVal = some v →
        readHandler dbVal (some key) c
          = (⟨200, "Value (from DB): " ++ v⟩, c.put key v,
             [.cacheGetE key, .dbGet key, .cachePutE key v])
        ∧ (∀ c', c.put key v = some c' → (cacheGetL key c'.items).1 = some v))
    ∧ ((cacheGetL key c.items).1 = none → dbVal = none →
        readHandler dbVal (some key) c
          = (⟨404, "Key not found"⟩, some c,
             [.cacheGetE key, .dbGet key])) := by
  refine ⟨?_, ?_, ?_⟩
  · intro v hv
    simp only [readHandler, LRU.get, hv]
  · intro hmiss v hdb
    subst hdb
    have he := cacheGetL_miss_state hmiss
    constructor
    · simp only [readHandler, LRU.get, he]
    · intro c' h
      rw [LRU.put] at h
      cases h2 : cachePutL c.maxSize key v c.items with
      | none => rw [h2] at h; cases h
      | some l' =>
        rw [h2] at h
        simp only [Option.map_some', Option.some.injEq] at h
        obtain ⟨t, rfl⟩ := cachePutL_head h2
        rw [← h]
        exact cacheGetL_cons_self key v t
  · intro hmiss hdb
    subst hdb
    have he := cacheGetL_miss_state hmiss
    simp only [readHandler, LRU.get, he]

theorem C3_read_through_witness :
    readHandler (some "w") (some "k") (LRU.mk 100 [("k", "v")])
      = (⟨200, "Value (from cache): " ++ "v"⟩,
         some (LRU.mk 100 [("k", "v")]), [.cacheGetE "k"]) := by
  have h := (C3_read_through "k" (LRU.mk 100 [("k", "v")]) (some "w")).1
    "v" (by decide)
  simpa using h

/-- C10: a healthy backend reports success for `DELETE` even when no row
matches (`PGRES_COMMAND_OK` on a zero-row delete), so `/delete` of a key
absent from both backend and cache still answers 200 with body
`Successfully deleted key: <K>`, leaving backend and cache unchanged;
the response is identical to deleting an existing key. -/
theorem C10_delete_absent_indistinguishable :
    (∀ (db : List Entry) (K : String) (c : LRU),
        (dbRemoveModel true db K).1 = true
        ∧ deleteHandler (dbRemoveModel true db K).1 (some K) c
            = (⟨200, "Successfully deleted key: " ++ K⟩, c.remove K,
               [.dbDelete K, .cacheRemoveE K]))
    ∧ (∀ (db : List Entry) (K : String), db.find? (keyIs K) = none →
        (dbRemoveModel true db K).2 = db)
    ∧ (∀ (K : String) (c : LRU), c.items.find? (keyIs K) = none →
        c.remove K = c)
    ∧ (∀ (K : String) (c c2 : LRU),
        (deleteHandler true (some K) c).1 = (deleteHandler true (some K) c2).1) := by
  refine ⟨fun db K c => ⟨rfl, rfl⟩, ?_, ?_, fun K c c2 => rfl⟩
  · intro db K h
    exact List.eraseP_of_forall_not (List.find?_eq_none.mp h)
  · intro K c h
    have : cacheRemoveL K c.items = c.items :=
      List.eraseP_of_forall_not (List.find?_eq_none.mp h)
    rw [LRU.remove, this]

theorem C10_delete_absent_indistinguishable_witness :
    deleteHandler (dbRemoveModel true [("other", "1")] "ghost").1
        (some "ghost") (LRU.mk 100 [])
      = (⟨200, "Successfully deleted key: " ++ "ghost"⟩, LRU.mk 100 [],
         [.dbDelete "ghost", .cacheRemoveE "ghost"]) := by
  have h := (C10_delete_absent_indistinguishable.1 [("other", "1")] "ghost"
    (LRU.mk 100 [])).2
  have h3 := C10_delete_absent_indistinguishable.2.2.1 "ghost" (LRU.mk 100 [])
    (by decide)
  rw [h, h3]

end DECS
